import Mathlib

/-!
Verification of the retrieval-scoring and shard-merge utilities of this
repository (`vissl/utils/instance_retrieval_utils/data_util.py` and
`vissl/utils/misc.py`) against its natural-language specification.

Real numbers produced by the Python code (similarity scores, average
precisions) are modelled as rationals `ℚ`; numpy arrays as Lean lists;
Python exceptions (IndexError, ZeroDivisionError) as an `Except Err` result.
-/

/-- Errors a scoring run can surface.  `indexError` and `zeroDivisionError`
are the Python exceptions the code can actually raise; `shapeMismatch`,
`invalidIndex` and `emptyQuerySet` are the error species named by the
specification's error taxonomy (they exist in the type so that claims about
them can be stated). -/
inductive Err where
  | indexError
  | zeroDivisionError
  | shapeMismatch
  | invalidIndex
  | emptyQuerySet
  deriving DecidableEq, Repr

/-! ### Ranking (argsort) as used by the three `score` call sites

`InstreDataset.score` (data_util.py:193) computes
`ranks = scores.argsort(axis=1)[:, ::-1]`, `InstanceRetrievalDataset.score`
(data_util.py:484) computes `idx = np.argsort(sim, axis=1)[:, ::-1]`, and
`RevisitedInstanceRetrievalDataset.score` (data_util.py:251) computes
`ranks = np.argsort(-sim, axis=0)`.

numpy's default `np.argsort` (kind='quicksort', an introsort) promises an
ascending ordering but NOT stability: the relative order of tied entries is
unspecified.  The embedding therefore treats the argsort applied to one row
as an arbitrary function satisfying that documented contract
(`ArgsortSpec`), and separately provides one conforming implementation
(`np_argsort`, a stable sort) used where a concrete ranking is needed —
on rows below introsort's small-array cutoff, where numpy falls back to
insertion sort, the two coincide. -/

/-- `v[i]` for a row of similarity scores (out-of-range reads default to 0;
all uses below stay in range). -/
def valAt (v : List ℚ) (i : ℕ) : ℚ := v.getD i 0

/-- numpy's documented contract for `np.argsort` on a single row: the
result is a permutation of the index range, ordered by ascending value.
Tie order is deliberately NOT constrained (the default kind='quicksort' is
not stable). -/
def ArgsortSpec (A : List ℚ → List ℕ) : Prop :=
  ∀ v : List ℚ,
    (A v).Perm (List.range v.length) ∧
    (A v).Pairwise (fun i j => valAt v i ≤ valAt v j)

/-- One admissible resolution of the tie order: ascending value with ties
in ascending index order. -/
def argLe (v : List ℚ) (i j : ℕ) : Prop :=
  valAt v i < valAt v j ∨ (valAt v i = valAt v j ∧ i ≤ j)

instance (v : List ℚ) : DecidableRel (argLe v) := fun i j => by
  unfold argLe; exact inferInstance

instance (v : List ℚ) : IsTotal ℕ (argLe v) where
  total i j := by
    unfold argLe
    rcases lt_trichotomy (valAt v i) (valAt v j) with h | h | h
    · exact Or.inl (Or.inl h)
    · rcases Nat.le_total i j with hij | hij
      · exact Or.inl (Or.inr ⟨h, hij⟩)
      · exact Or.inr (Or.inr ⟨h.symm, hij⟩)
    · exact Or.inr (Or.inl h)

instance (v : List ℚ) : IsTrans ℕ (argLe v) where
  trans i j k hij hjk := by
    unfold argLe at *
    rcases hij with h1 | ⟨e1, l1⟩
    · rcases hjk with h2 | ⟨e2, _⟩
      · exact Or.inl (h1.trans h2)
      · exact Or.inl (e2 ▸ h1)
    · rcases hjk with h2 | ⟨e2, l2⟩
      · exact Or.inl (e1 ▸ h2)
      · exact Or.inr ⟨e1.trans e2, l1.trans l2⟩

/-- One conforming implementation of `np.argsort` on a row (it coincides
with numpy's actual behaviour on rows short enough for introsort's
insertion-sort fallback, and with kind='stable' in general). -/
def np_argsort (v : List ℚ) : List ℕ :=
  List.insertionSort (argLe v) (List.range v.length)

/-- `np_argsort` meets numpy's argsort contract. -/
theorem np_argsort_spec : ArgsortSpec np_argsort := by
  intro v
  constructor
  · exact List.perm_insertionSort _ _
  · have h := List.sorted_insertionSort (argLe v) (List.range v.length)
    exact h.imp (fun hab => by
      rcases hab with h1 | ⟨h1, _⟩
      · exact le_of_lt h1
      · exact le_of_eq h1)

/-- One row of `InstreDataset.score`'s ranking under argsort
implementation `A`: `scores.argsort(axis=1)[:, ::-1]` (data_util.py:193). -/
def instre_ranks_with (A : List ℚ → List ℕ) (v : List ℚ) : List ℕ :=
  (A v).reverse

/-- One row of `InstanceRetrievalDataset.score`'s ranking under argsort
implementation `A`: `np.argsort(sim, axis=1)[:, ::-1]`
(data_util.py:484). -/
def instance_retrieval_ranks_with (A : List ℚ → List ℕ) (v : List ℚ) :
    List ℕ := (A v).reverse

/-- One column of `RevisitedInstanceRetrievalDataset.score`'s ranking
under argsort implementation `A`: `np.argsort(-sim, axis=0)`
(data_util.py:249-251); the column holds the similarities of one query to
all database items. -/
def revisited_ranks_with (A : List ℚ → List ℕ) (v : List ℚ) : List ℕ :=
  A (v.map (fun x => -x))

/-- One row of `InstanceRetrievalDataset.score`'s ranking with the
concrete `np_argsort` (tie order is irrelevant to the claims about this
function's effects and report). -/
def instance_retrieval_rank_row (v : List ℚ) : List ℕ := (np_argsort v).reverse

/-- `valAt` on a negated row is the negated value (out-of-range reads give
`0 = -0` on both sides). -/
theorem valAt_map_neg (v : List ℚ) (i : ℕ) :
    valAt (v.map (fun x => -x)) i = -(valAt v i) := by
  unfold valAt
  simp only [List.getD, List.get?_eq_getElem?, List.getElem?_map]
  rcases h : v[i]? with _ | a
  · simp [h]
  · simp [h]

/-- A list with the two distinct elements of `range 2` is changed by
reversal. -/
theorem reverse_ne_of_perm_range_two (l : List ℕ)
    (h : l.Perm (List.range 2)) : l.reverse ≠ l := by
  have hnd : l.Nodup := h.nodup_iff.mpr (by decide)
  have hlen : l.length = 2 := by rw [h.length_eq]; rfl
  rcases l with _ | ⟨a, l1⟩
  · simp at hlen
  rcases l1 with _ | ⟨b, l2⟩
  · simp at hlen
  rcases l2 with _ | ⟨c, l3⟩
  · have hab : a ≠ b := by
      rcases List.nodup_cons.mp hnd with ⟨hna, _⟩
      exact fun he => hna (he ▸ List.mem_singleton.mpr rfl)
    intro heq
    simp only [List.reverse_cons, List.reverse_nil, List.nil_append,
      List.cons_append, List.cons.injEq] at heq
    exact hab heq.1.symm
  · simp at hlen

/-- Claim C3 (amended): for every argsort implementation meeting numpy's
documented contract, each scoring call site deterministically ranks all
database indices by descending similarity — the ranking is a permutation
of the index range, pairwise descending by value — and the two
`argsort(...)[:, ::-1]` sites (`InstreDataset.score`,
`InstanceRetrievalDataset.score`) compute the same ranking function; but
tie-breaking is NOT consistent with the `argsort(-sim)` site
(`RevisitedInstanceRetrievalDataset.score`): on the tied row `[0, 0]` the
two families necessarily disagree, whatever the implementation's tie
order. -/
theorem ranking_desc_and_tie_break (A : List ℚ → List ℕ)
    (hA : ArgsortSpec A) (v : List ℚ) :
    instance_retrieval_ranks_with A v = instre_ranks_with A v ∧
    (instre_ranks_with A v).Perm (List.range v.length) ∧
    (instre_ranks_with A v).Pairwise
      (fun i j => valAt v j ≤ valAt v i) ∧
    (revisited_ranks_with A v).Perm (List.range v.length) ∧
    (revisited_ranks_with A v).Pairwise
      (fun i j => valAt v j ≤ valAt v i) ∧
    instre_ranks_with A [0, 0] ≠ revisited_ranks_with A [0, 0] := by
  refine ⟨rfl, ?_, ?_, ?_, ?_, ?_⟩
  · exact (List.reverse_perm _).trans (hA v).1
  · rw [instre_ranks_with, List.pairwise_reverse]
    exact (hA v).2
  · have h := (hA (v.map (fun x => -x))).1
    simpa [revisited_ranks_with] using h
  · have h := (hA (v.map (fun x => -x))).2
    refine List.Pairwise.imp ?_ h
    intro a b hab
    rw [valAt_map_neg, valAt_map_neg] at hab
    exact neg_le_neg_iff.mp hab
  · have hmap : (([0, 0] : List ℚ).map (fun x => -x)) = [0, 0] := by
      norm_num
    have hrev : revisited_ranks_with A [0, 0] = A [0, 0] := by
      rw [revisited_ranks_with, hmap]
    rw [instre_ranks_with, hrev]
    exact reverse_ne_of_perm_range_two (A [0, 0]) (hA [0, 0]).1

/-- Claim C3 (witness): the amended theorem applied to the conforming
implementation `np_argsort` on a row with a tie. -/
theorem ranking_desc_and_tie_break_witness :
    (instre_ranks_with np_argsort [3, 3, 7]).Pairwise
      (fun i j => valAt [3, 3, 7] j ≤ valAt [3, 3, 7] i) :=
  (ranking_desc_and_tie_break np_argsort np_argsort_spec [3, 3, 7]).2.2.1

/-- Claim C3 (counterexample): on the two-item row of tied similarities
`[0, 0]` — short enough that numpy's introsort is exactly this insertion
sort — `InstreDataset.score` ranks item 1 first while
`RevisitedInstanceRetrievalDataset.score` ranks item 0 first: the call
sites do not break ties consistently (and by the amended theorem's last
conjunct no conforming argsort implementation could make them agree
here). -/
theorem ranking_tie_break_counterexample :
    instre_ranks_with np_argsort [0, 0] = [1, 0] ∧
    revisited_ranks_with np_argsort [0, 0] = [0, 1] ∧
    instre_ranks_with np_argsort [0, 0] ≠
      revisited_ranks_with np_argsort [0, 0] := by decide

/-! ### `InstreDataset.eval_from_ranks` (data_util.py:176-190)

`gnd` holds, per query, the list of 0-based positive database indices (the
source reads 1-based arrays from `gnd_instre.mat` and subtracts 1; that
data-side shift is folded into the input representation here).  `valSubset`
is `self.val_subset` (a Python `set`, modelled as a `Finset ℕ`).  `rows` is
the `ranks` argument, one ranked index list per query; `nb` is the number
of database items (`ranks.shape[1]`).  Python exceptions become `Err`
values: out-of-bounds indexing (`gnd[i]`, `ok[positives]`, `ok[ranks[i]]`)
raises IndexError and the final `sum_ap / nq`, `sum_ap_val /
len(self.val_subset)` divisions raise ZeroDivisionError on zero
denominators. -/

/-- Modelled from the spec: `score_ap_from_ranks_1` lives in
`vissl/utils/instance_retrieval_utils/evaluate.py`, which is not part of
the sources; per the specification, Average Precision is the mean over all
positive items found during the scan of the precision
(positives-seen-so-far / items-scanned-so-far) at the rank where each
positive appears, and a query with zero positives has AP = 0 rather than a
division by zero.  `pos` is the sorted list of ranks (0-based scan
positions) at which positives appear; `nres` the number of positives. -/
def score_ap_from_ranks_1 (pos : List ℕ) (nres : ℕ) : ℚ :=
  if nres = 0 then 0
  else (((List.range pos.length).map
    (fun (j : ℕ) => ((j : ℚ) + 1) / ((pos.getD j 0 : ℚ) + 1))).sum) / (nres : ℚ)

/-- The body of one iteration of the query loop of `eval_from_ranks`
(data_util.py:181-186): fetch `positives = gnd[i]`, build the boolean
relevance mask `ok` over `nb` database items (IndexError when a positive is
out of bounds), gather `pos = np.where(ok[ranks[i]])[0]` (IndexError when a
rank entry is out of bounds) and score it. -/
def apOfQuery (gnd : List (List ℕ)) (nb : ℕ) (rows : List (List ℕ))
    (i : ℕ) : Except Err ℚ :=
  match gnd.get? i with
  | none => .error .indexError
  | some positives =>
    if positives.all (fun p => p < nb) then
      let row := rows.getD i []
      if row.all (fun r => r < nb) then
        let pos := (List.range row.length).filter
          (fun j => positives.contains (row.getD j 0))
        .ok (score_ap_from_ranks_1 pos positives.length)
      else .error .indexError
    else .error .indexError

/-- The per-query AP value as a total function (equals the `.ok` payload of
`apOfQuery` whenever that succeeds). -/
def apQ (gnd : List (List ℕ)) (rows : List (List ℕ)) (i : ℕ) : ℚ :=
  score_ap_from_ranks_1
    ((List.range (rows.getD i []).length).filter
      (fun j => (gnd.getD i []).contains ((rows.getD i []).getD j 0)))
    (gnd.getD i []).length

/-- The accumulation loop of `eval_from_ranks` (data_util.py:179-189),
unrolled from the left: after `n` iterations the state is
`(sum_ap, sum_ap_val)`; the first failing query aborts with its error. -/
def sumAps (gnd : List (List ℕ)) (valSubset : Finset ℕ) (nb : ℕ)
    (rows : List (List ℕ)) : ℕ → Except Err (ℚ × ℚ)
  | 0 => .ok (0, 0)
  | n + 1 =>
    match sumAps gnd valSubset nb rows n with
    | .error e => .error e
    | .ok s =>
      match apOfQuery gnd nb rows n with
      | .error e => .error e
      | .ok ap => .ok (s.1 + ap, if n ∈ valSubset then s.2 + ap else s.2)

/-- `InstreDataset.eval_from_ranks` (data_util.py:176-190): run the query
loop over `nq = ranks.shape[0]` queries, then return
`(sum_ap / nq, sum_ap_val / len(val_subset))`; a zero denominator raises
ZeroDivisionError, the left division first. -/
def eval_from_ranks (gnd : List (List ℕ)) (valSubset : Finset ℕ) (nb : ℕ)
    (rows : List (List ℕ)) : Except Err (ℚ × ℚ) :=
  match sumAps gnd valSubset nb rows rows.length with
  | .error e => .error e
  | .ok s =>
    if rows.length = 0 then .error .zeroDivisionError
    else if valSubset.card = 0 then .error .zeroDivisionError
    else .ok (s.1 / (rows.length : ℚ), s.2 / (valSubset.card : ℚ))

/-- `InstreDataset.__init__` (data_util.py:153-155): the validation subset
is `set(rs.choice(nq, nq // 10))` where `rs = np.random.RandomState(123)`
draws `nq // 10` samples with replacement from `range(nq)`.  The seeded
generator is abstracted as a draw function `ℕ → ℕ` giving the value of each
of the `nq // 10` draws; collecting them into a Python `set` is the
`Finset.image`. -/
def instre_val_subset (nq : ℕ) (draw : ℕ → ℕ) : Finset ℕ :=
  (Finset.range (nq / 10)).image draw

/-- When query `i` is in range and all its relevance and rank indices are in
bounds, the loop body succeeds and returns the per-query AP value. -/
theorem apOfQuery_ok (gnd : List (List ℕ)) (nb : ℕ) (rows : List (List ℕ))
    (i : ℕ) (hi : i < gnd.length)
    (hp : ∀ p ∈ gnd.getD i [], p < nb)
    (hr : ∀ x ∈ rows.getD i [], x < nb) :
    apOfQuery gnd nb rows i = .ok (apQ gnd rows i) := by
  rcases h2 : gnd.get? i with _ | ps
  · rw [List.get?_eq_none] at h2
    omega
  · have h2e : gnd[i]? = some ps := by rw [← List.get?_eq_getElem?]; exact h2
    have hD : gnd.getD i [] = ps := by simp [List.getD, h2e]
    rw [hD] at hp
    unfold apOfQuery apQ
    rw [h2, hD]
    have hA : (ps.all fun p => decide (p < nb)) = true :=
      List.all_eq_true.mpr (fun p hp' => decide_eq_true (hp p hp'))
    have hB : ((rows.getD i []).all fun r => decide (r < nb)) = true :=
      List.all_eq_true.mpr (fun x hx => decide_eq_true (hr x hx))
    simp only [hA, hB, if_true]

/-- The loop body can only succeed or raise IndexError. -/
theorem apOfQuery_err_species (gnd : List (List ℕ)) (nb : ℕ)
    (rows : List (List ℕ)) (i : ℕ) (e : Err)
    (h : apOfQuery gnd nb rows i = .error e) : e = .indexError := by
  unfold apOfQuery at h
  rcases h3 : gnd.get? i with _ | ps <;> rw [h3] at h
  · injection h with h4
    exact h4.symm
  · dsimp only at h
    split at h
    · split at h
      · exact absurd h (by simp)
      · injection h with h4
        exact h4.symm
    · injection h with h4
      exact h4.symm

/-- The accumulation loop can only succeed or raise IndexError. -/
theorem sumAps_err_species (gnd : List (List ℕ)) (valSubset : Finset ℕ)
    (nb : ℕ) (rows : List (List ℕ)) (n : ℕ) (e : Err)
    (h : sumAps gnd valSubset nb rows n = .error e) : e = .indexError := by
  induction n with
  | zero => exact absurd h (by simp [sumAps])
  | succ m ih =>
    unfold sumAps at h
    rcases h1 : sumAps gnd valSubset nb rows m with e1 | s <;> rw [h1] at h
    · dsimp only at h
      injection h with h4
      subst h4
      exact ih h1
    · dsimp only at h
      rcases h2 : apOfQuery gnd nb rows m with e2 | ap <;> rw [h2] at h
      · dsimp only at h
        injection h with h4
        subst h4
        exact apOfQuery_err_species gnd nb rows m _ h2
      · exact absurd h (by simp)

/-- When every query up to `n` is in range with in-bounds indices, the loop
accumulates exactly the sum of per-query APs (and the sum restricted to the
validation subset). -/
theorem sumAps_ok (gnd : List (List ℕ)) (valSubset : Finset ℕ) (nb : ℕ)
    (rows : List (List ℕ)) (n : ℕ)
    (hg : n ≤ gnd.length)
    (hp : ∀ i ∈ Finset.range n, ∀ p ∈ gnd.getD i [], p < nb)
    (hr : ∀ i ∈ Finset.range n, ∀ x ∈ rows.getD i [], x < nb) :
    sumAps gnd valSubset nb rows n =
      .ok (Finset.sum (Finset.range n) (apQ gnd rows),
           Finset.sum (Finset.range n)
             (fun i => if i ∈ valSubset then apQ gnd rows i else 0)) := by
  induction n with
  | zero => simp [sumAps]
  | succ m ih =>
    have hg' : m ≤ gnd.length := Nat.le_of_succ_le hg
    have hp' : ∀ i ∈ Finset.range m, ∀ p ∈ gnd.getD i [], p < nb :=
      fun i hi => hp i (Finset.mem_range.mpr (Nat.lt_succ_of_lt (Finset.mem_range.mp hi)))
    have hr' : ∀ i ∈ Finset.range m, ∀ x ∈ rows.getD i [], x < nb :=
      fun i hi => hr i (Finset.mem_range.mpr (Nat.lt_succ_of_lt (Finset.mem_range.mp hi)))
    have hm : m ∈ Finset.range (m + 1) := Finset.mem_range.mpr (Nat.lt_succ_self m)
    unfold sumAps
    rw [ih hg' hp' hr',
      apOfQuery_ok gnd nb rows m (Nat.lt_of_succ_le hg) (hp m hm) (hr m hm)]
    dsimp only
    rw [Finset.sum_range_succ, Finset.sum_range_succ]
    by_cases hmem : m ∈ valSubset
    · simp [hmem]
    · simp [hmem]

/-- `eval_from_ranks` can only fail with IndexError or ZeroDivisionError. -/
theorem eval_from_ranks_err_species (gnd : List (List ℕ))
    (valSubset : Finset ℕ) (nb : ℕ) (rows : List (List ℕ)) (e : Err)
    (h : eval_from_ranks gnd valSubset nb rows = .error e) :
    e = .indexError ∨ e = .zeroDivisionError := by
  unfold eval_from_ranks at h
  rcases h1 : sumAps gnd valSubset nb rows rows.length with e1 | s <;>
    rw [h1] at h
  · dsimp only at h
    injection h with h4
    subst h4
    exact Or.inl (sumAps_err_species gnd valSubset nb rows rows.length _ h1)
  · dsimp only at h
    split at h
    · injection h with h4
      exact Or.inr h4.symm
    · split at h
      · injection h with h4
        exact Or.inr h4.symm
      · exact absurd h (by simp)

/-- Once the query iteration has run past every relevance entry (`nq`
exceeds `len(gnd)`), accessing the missing entry raises IndexError. -/
theorem sumAps_gnd_short (gnd : List (List ℕ)) (valSubset : Finset ℕ)
    (nb : ℕ) (rows : List (List ℕ)) (n : ℕ) (h : gnd.length < n) :
    sumAps gnd valSubset nb rows n = .error .indexError := by
  induction n with
  | zero => omega
  | succ m ih =>
    unfold sumAps
    rcases Nat.lt_or_ge gnd.length m with hm | hm
    · rw [ih hm]
    · have heq : gnd.length = m := by omega
      rcases h1 : sumAps gnd valSubset nb rows m with e1 | s
      · rw [sumAps_err_species gnd valSubset nb rows m e1 h1]
      · have h2 : gnd.get? m = none := List.get?_eq_none.mpr (le_of_eq heq)
        dsimp only
        unfold apOfQuery
        rw [h2]

/-- Claim C2: the aggregate mean AP returned by
`InstreDataset.eval_from_ranks` is the arithmetic mean of the per-query AP
values — their sum divided by the number of queries — and the
validation-subset result is likewise the sum of the APs of the validation
queries divided by the size of the validation subset. -/
theorem eval_from_ranks_is_mean (gnd : List (List ℕ)) (valSubset : Finset ℕ)
    (nb : ℕ) (rows : List (List ℕ))
    (hg : rows.length ≤ gnd.length)
    (hp : ∀ i ∈ Finset.range rows.length, ∀ p ∈ gnd.getD i [], p < nb)
    (hr : ∀ i ∈ Finset.range rows.length, ∀ x ∈ rows.getD i [], x < nb)
    (hnq : rows.length ≠ 0)
    (hvs : valSubset ⊆ Finset.range rows.length)
    (hvne : valSubset.Nonempty) :
    eval_from_ranks gnd valSubset nb rows =
      .ok (Finset.sum (Finset.range rows.length) (apQ gnd rows)
             / (rows.length : ℚ),
           Finset.sum valSubset (apQ gnd rows) / (valSubset.card : ℚ)) := by
  unfold eval_from_ranks
  rw [sumAps_ok gnd valSubset nb rows rows.length hg hp hr]
  dsimp only
  rw [if_neg hnq, if_neg hvne.card_ne_zero]
  have hsum : Finset.sum (Finset.range rows.length)
      (fun i => if i ∈ valSubset then apQ gnd rows i else 0) =
      Finset.sum valSubset (apQ gnd rows) := by
    rw [← Finset.sum_filter, Finset.filter_mem_eq_inter,
      Finset.inter_eq_right.mpr hvs]
  rw [hsum]

/-- Claim C2 (witness): the spec's concrete scenario — one query over five
database items ranked `[0,1,2,3,4]` with positives `{0, 2}` — evaluates to
the mean formula's value. -/
theorem eval_from_ranks_is_mean_witness :
    eval_from_ranks [[0, 2]] {0} 5 [[0, 1, 2, 3, 4]] =
      .ok (Finset.sum (Finset.range (1 : ℕ)) (apQ [[0, 2]] [[0, 1, 2, 3, 4]])
             / ((1 : ℕ) : ℚ),
           Finset.sum {0} (apQ [[0, 2]] [[0, 1, 2, 3, 4]])
             / ((1 : ℕ) : ℚ)) :=
  eval_from_ranks_is_mean [[0, 2]] {0} 5 [[0, 1, 2, 3, 4]]
    (by decide) (by decide) (by decide) (by decide) (by decide) (by decide)

/-- Claim C4 (amended): the scoring path performs no eager shape or index
validation and never reports `ShapeMismatch` or `InvalidIndex`.  When the
similarity matrix has fewer rows than there are relevance entries, the
extra entries are silently ignored and scoring succeeds; when it has more
rows, the missing relevance entry surfaces as a generic IndexError when it
is first accessed inside the per-query scan (not before ranking work, which
the caller has already done); an out-of-bounds relevance index likewise
surfaces as an IndexError during that query's scan. -/
theorem eval_from_ranks_no_eager_validation (gnd : List (List ℕ))
    (valSubset : Finset ℕ) (nb : ℕ) (rows : List (List ℕ)) :
    eval_from_ranks gnd valSubset nb rows ≠ .error .shapeMismatch ∧
    eval_from_ranks gnd valSubset nb rows ≠ .error .invalidIndex ∧
    (gnd.length < rows.length →
      eval_from_ranks gnd valSubset nb rows = .error .indexError) ∧
    (rows.length ≤ gnd.length →
      (∀ i ∈ Finset.range rows.length, ∀ p ∈ gnd.getD i [], p < nb) →
      (∀ i ∈ Finset.range rows.length, ∀ x ∈ rows.getD i [], x < nb) →
      rows.length ≠ 0 → valSubset.card ≠ 0 →
      (eval_from_ranks gnd valSubset nb rows).isOk = true) := by
  refine ⟨?_, ?_, ?_, ?_⟩
  · intro h
    rcases eval_from_ranks_err_species gnd valSubset nb rows _ h with h1 | h1 <;>
      exact absurd h1 (by simp)
  · intro h
    rcases eval_from_ranks_err_species gnd valSubset nb rows _ h with h1 | h1 <;>
      exact absurd h1 (by simp)
  · intro hlt
    unfold eval_from_ranks
    rw [sumAps_gnd_short gnd valSubset nb rows rows.length hlt]
  · intro hg hp hr hnq hc
    unfold eval_from_ranks
    rw [sumAps_ok gnd valSubset nb rows rows.length hg hp hr]
    dsimp only
    rw [if_neg hnq, if_neg hc]
    rfl

/-- Claim C4 (counterexample): with one similarity row but two relevance
entries (row count 1 ≠ 2 relevance entries), scoring does not fail at all —
it silently ignores the second entry and returns a result, so no eager
`ShapeMismatch` check exists. -/
theorem eval_from_ranks_no_shape_check_counterexample :
    (eval_from_ranks [[0], [0]] {0} 1 [[0]]).isOk = true ∧
    ([[(0 : ℕ)]].length : ℕ) ≠ ([[(0 : ℕ)], [0]].length : ℕ) := by decide

/-- Claim C4 (witness): the silent-success branch of the amended theorem at
the counterexample's input. -/
theorem eval_from_ranks_no_eager_validation_witness :
    (eval_from_ranks [[0], [1]] {0} 2 [[0, 1], [1, 0]]).isOk = true :=
  (eval_from_ranks_no_eager_validation [[0], [1]] {0} 2 [[0, 1], [1, 0]]).2.2.2
    (by decide) (by decide) (by decide) (by decide) (by decide)

/-- Claim C7 (amended): when zero queries are supplied,
`InstreDataset.eval_from_ranks` raises ZeroDivisionError from the aggregate
mean division `sum_ap / nq`; no `EmptyQuerySet` error is ever reported by
any run of the function. -/
theorem eval_from_ranks_zero_queries (gnd : List (List ℕ))
    (valSubset : Finset ℕ) (nb : ℕ) (rows : List (List ℕ))
    (h : rows.length = 0) :
    eval_from_ranks gnd valSubset nb rows = .error .zeroDivisionError ∧
    (∀ (g2 : List (List ℕ)) (v2 : Finset ℕ) (n2 : ℕ) (r2 : List (List ℕ)),
      eval_from_ranks g2 v2 n2 r2 ≠ .error .emptyQuerySet) := by
  constructor
  · unfold eval_from_ranks
    rw [h]
    rfl
  · intro g2 v2 n2 r2 h2
    rcases eval_from_ranks_err_species g2 v2 n2 r2 _ h2 with h1 | h1 <;>
      exact absurd h1 (by simp)

/-- Claim C7 (witness): the zero-query case at a concrete input. -/
theorem eval_from_ranks_zero_queries_witness :
    eval_from_ranks [[1]] {5} 4 [] = .error .zeroDivisionError :=
  (eval_from_ranks_zero_queries [[1]] {5} 4 [] (by decide)).1

/-- Claim C7 (counterexample): with zero queries the code raises the
arithmetic ZeroDivisionError — not the `EmptyQuerySet` report the claim
requires. -/
theorem eval_from_ranks_zero_queries_counterexample :
    eval_from_ranks [] ∅ 3 [] = .error .zeroDivisionError ∧
    Err.zeroDivisionError ≠ Err.emptyQuerySet := ⟨rfl, by decide⟩

/-- Claim C10: the validation subset holds `nq // 10` draws made with
replacement (so it can hold fewer distinct queries than `nq // 10`, as the
20-query instance with coinciding draws shows), and for any INSTRE dataset
with fewer than 10 queries the subset is empty, so `eval_from_ranks` — and
hence `score`, which merely ranks and then calls it — fails with a
division by zero instead of returning a result.  The seeded
`RandomState(123)` generator is abstracted by the `draw` function; the
conclusions hold for every possible sequence of draws. -/
theorem instre_val_subset_small_div_zero (nq nb : ℕ) (draw : ℕ → ℕ)
    (gnd rows : List (List ℕ))
    (h10 : nq < 10) (_hlen : rows.length = nq)
    (hg : rows.length ≤ gnd.length)
    (hp : ∀ i ∈ Finset.range rows.length, ∀ p ∈ gnd.getD i [], p < nb)
    (hr : ∀ i ∈ Finset.range rows.length, ∀ x ∈ rows.getD i [], x < nb) :
    instre_val_subset nq draw = ∅ ∧
    eval_from_ranks gnd (instre_val_subset nq draw) nb rows =
      .error .zeroDivisionError ∧
    (instre_val_subset 20 (fun _ => 0)).card < 20 / 10 := by
  have hdiv : nq / 10 = 0 := Nat.div_eq_of_lt h10
  have hempty : instre_val_subset nq draw = ∅ := by
    rw [instre_val_subset, hdiv]
    rfl
  refine ⟨hempty, ?_, by decide⟩
  unfold eval_from_ranks
  rw [sumAps_ok gnd (instre_val_subset nq draw) nb rows rows.length hg hp hr]
  dsimp only
  by_cases hz : rows.length = 0
  · rw [if_pos hz]
  · rw [if_neg hz, if_pos (by rw [hempty]; rfl)]

/-- Claim C10 (witness): a three-query INSTRE instance: the validation
subset is empty and evaluation fails with a division by zero. -/
theorem instre_val_subset_small_div_zero_witness :
    instre_val_subset 3 (fun j => j) = ∅ ∧
    eval_from_ranks [[0], [1], [2]] (instre_val_subset 3 (fun j => j)) 3
      [[0, 1, 2], [0, 1, 2], [0, 1, 2]] = .error .zeroDivisionError ∧
    (instre_val_subset 20 (fun _ => 0)).card < 20 / 10 :=
  instre_val_subset_small_div_zero 3 3 (fun j => j)
    [[0], [1], [2]] [[0, 1, 2], [0, 1, 2], [0, 1, 2]]
    (by decide) (by decide) (by decide) (by decide) (by decide)

/-! ### `RevisitedInstanceRetrievalDataset.score` view construction
(data_util.py:248-282) -/

/-- Raw per-query ground-truth label sets of a revisited (roxford5k /
rparis6k) benchmark entry: `gnd[i]["easy"]`, `gnd[i]["hard"]`,
`gnd[i]["junk"]` (index arrays modelled as lists). -/
structure RevGnd where
  easy : List ℕ
  hard : List ℕ
  junk : List ℕ

/-- One recombined evaluation view: `g["ok"]` and `g["junk"]` as built in
the `gnd_t` loops of `score`. -/
structure GndT where
  ok : List ℕ
  junk : List ℕ

/-- The "search for easy" view (data_util.py:257-263):
`ok = concatenate([easy])`, `junk = concatenate([junk, hard])`. -/
def easy_view (g : RevGnd) : GndT := { ok := g.easy, junk := g.junk ++ g.hard }

/-- The "search for easy & hard" view (data_util.py:266-272):
`ok = concatenate([easy, hard])`, `junk = concatenate([junk])`. -/
def medium_view (g : RevGnd) : GndT :=
  { ok := g.easy ++ g.hard, junk := g.junk }

/-- The "search for hard" view (data_util.py:275-281):
`ok = concatenate([hard])`, `junk = concatenate([junk, easy])`. -/
def hard_view (g : RevGnd) : GndT := { ok := g.hard, junk := g.junk ++ g.easy }

/-- The three `gnd_t` lists `RevisitedInstanceRetrievalDataset.score`
passes to `compute_map`, in evaluation order (Easy, Medium, Hard). -/
def revisited_views (gnd : List RevGnd) :
    List GndT × List GndT × List GndT :=
  (gnd.map easy_view, gnd.map medium_view, gnd.map hard_view)

/-- Claim C1: for every query the tiered scorer builds exactly the three
views Easy (positive = easy, junk = junk ∪ hard), Medium (positive =
easy ∪ hard, junk = junk) and Hard (positive = hard, junk = junk ∪ easy) —
stated as membership equivalences — and when the raw easy/hard/junk sets
are pairwise disjoint, no constructed view's positive set meets its junk
set. -/
theorem revisited_views_correct (gnd : List RevGnd) (g : RevGnd)
    (heh : ∀ x, x ∈ g.easy → x ∉ g.hard)
    (hej : ∀ x, x ∈ g.easy → x ∉ g.junk)
    (hhj : ∀ x, x ∈ g.hard → x ∉ g.junk) :
    revisited_views gnd =
      (gnd.map easy_view, gnd.map medium_view, gnd.map hard_view) ∧
    (∀ x, (x ∈ (easy_view g).ok ↔ x ∈ g.easy) ∧
      (x ∈ (easy_view g).junk ↔ x ∈ g.junk ∨ x ∈ g.hard)) ∧
    (∀ x, (x ∈ (medium_view g).ok ↔ x ∈ g.easy ∨ x ∈ g.hard) ∧
      (x ∈ (medium_view g).junk ↔ x ∈ g.junk)) ∧
    (∀ x, (x ∈ (hard_view g).ok ↔ x ∈ g.hard) ∧
      (x ∈ (hard_view g).junk ↔ x ∈ g.junk ∨ x ∈ g.easy)) ∧
    (∀ x, x ∈ (easy_view g).ok → x ∉ (easy_view g).junk) ∧
    (∀ x, x ∈ (medium_view g).ok → x ∉ (medium_view g).junk) ∧
    (∀ x, x ∈ (hard_view g).ok → x ∉ (hard_view g).junk) := by
  refine ⟨rfl, ?_, ?_, ?_, ?_, ?_, ?_⟩
  · intro x
    exact ⟨Iff.rfl, List.mem_append⟩
  · intro x
    exact ⟨List.mem_append, Iff.rfl⟩
  · intro x
    exact ⟨Iff.rfl, List.mem_append⟩
  · intro x hx hmem
    rcases List.mem_append.mp hmem with hj | hh
    · exact hej x hx hj
    · exact heh x hx hh
  · intro x hx hmem
    rcases List.mem_append.mp hx with he | hh
    · exact hej x he hmem
    · exact hhj x hh hmem
  · intro x hx hmem
    rcases List.mem_append.mp hmem with hj | he
    · exact hhj x hx hj
    · exact heh x he hx

/-- Claim C1 (witness): a concrete query with pairwise-disjoint raw sets;
in particular the Easy view's positive and junk sets do not overlap. -/
theorem revisited_views_correct_witness :
    (0 : ℕ) ∉ (easy_view ⟨[0], [1], [2]⟩).junk :=
  (revisited_views_correct [⟨[0], [1], [2]⟩] ⟨[0], [1], [2]⟩
    (by decide) (by decide) (by decide)).2.2.2.2.1 0 (by decide)

/-! ### `InstanceRetrievalImageLoader.apply_img_transform`
(data_util.py:310-325) -/

/-- `np.round`: round half to even, as numpy does. -/
def np_round (q : ℚ) : ℤ :=
  if q - Int.floor q < 1 / 2 then Int.floor q
  else if 1 / 2 < q - Int.floor q then Int.floor q + 1
  else if Int.floor q % 2 = 0 then Int.floor q else Int.floor q + 1

/-- `np_round` fixes integers. -/
theorem np_round_intCast (z : ℤ) : np_round (z : ℚ) = z := by
  unfold np_round
  rw [Int.floor_intCast]
  norm_num

/-- The `ratio` computed by `apply_img_transform` (data_util.py:312-320)
for an image of height `h` and width `w` (`im_size_hw = (h, w)`,
`np.max(im_size_hw) = max h w`). -/
def apply_img_transform_ratio (S : ℤ) (h w : ℕ) : ℚ :=
  if S = -1 then 1
  else if S = -2 then
    (if 124 < max h w then 1024 / ((max h w : ℕ) : ℚ) else -1)
  else (S : ℚ) / ((max h w : ℕ) : ℚ)

/-- The `new_size = tuple(np.round(im_size_hw * ratio))` computed by
`apply_img_transform` (data_util.py:321), as (height, width). -/
def apply_img_transform_new_size (S : ℤ) (h w : ℕ) : ℤ × ℤ :=
  (np_round ((h : ℚ) * apply_img_transform_ratio S h w),
   np_round ((w : ℚ) * apply_img_transform_ratio S h w))

/-- Claim C9: with `S == -2`, an image whose larger side is at most 124
gets `ratio = -1`, making the computed target size exactly the negated
original size — negative in both dimensions for any non-degenerate image —
rather than the original size; a larger image gets
`ratio = 1024 / max(h, w)`. -/
theorem apply_img_transform_small_image_negative (h w : ℕ)
    (hh : 0 < h) (hw : 0 < w) (hsmall : max h w ≤ 124) :
    apply_img_transform_ratio (-2) h w = -1 ∧
    apply_img_transform_new_size (-2) h w = (-(h : ℤ), -(w : ℤ)) ∧
    (apply_img_transform_new_size (-2) h w).1 < 0 ∧
    (apply_img_transform_new_size (-2) h w).2 < 0 ∧
    (∀ h2 w2 : ℕ, 124 < max h2 w2 →
      apply_img_transform_ratio (-2) h2 w2 = 1024 / ((max h2 w2 : ℕ) : ℚ)) := by
  have hratio : apply_img_transform_ratio (-2) h w = -1 := by
    unfold apply_img_transform_ratio
    rw [if_neg (by decide), if_pos rfl, if_neg (by omega)]
  have hsize : apply_img_transform_new_size (-2) h w = (-(h : ℤ), -(w : ℤ)) := by
    unfold apply_img_transform_new_size
    rw [hratio]
    have h1 : (h : ℚ) * (-1) = ((-(h : ℤ) : ℤ) : ℚ) := by push_cast; ring
    have h2 : (w : ℚ) * (-1) = ((-(w : ℤ) : ℤ) : ℚ) := by push_cast; ring
    rw [h1, h2, np_round_intCast, np_round_intCast]
  refine ⟨hratio, hsize, ?_, ?_, ?_⟩
  · rw [hsize]
    simpa using hh
  · rw [hsize]
    simpa using hw
  · intro h2 w2 hbig
    unfold apply_img_transform_ratio
    rw [if_neg (by decide), if_pos rfl, if_pos hbig]

/-- Claim C9 (witness): a 100 × 50 image under `S = -2` is assigned ratio
-1 and the negative target size (-100, -50). -/
theorem apply_img_transform_small_image_negative_witness :
    apply_img_transform_ratio (-2) 100 50 = -1 ∧
    apply_img_transform_new_size (-2) 100 50 = (-100, -50) :=
  ⟨(apply_img_transform_small_image_negative 100 50
      (by decide) (by decide) (by decide)).1,
   (apply_img_transform_small_image_negative 100 50
      (by decide) (by decide) (by decide)).2.1⟩

/-! ### `InstanceRetrievalDataset.score` / `score_rnk_partial`
(data_util.py:481-507)

`score` writes ranking files and invokes an external binary, so the model
makes the outward effects explicit: each call returns the list of
filesystem/process effects it performs alongside its value.  The stdout of
the external evaluation binary is abstracted by the oracle `binOut`, giving
the float the source parses from the subprocess pipe. -/

/-- An outward effect: `os.makedirs`, writing a file, or spawning a
subprocess. -/
inductive FsEffect where
  | makeDirs (dir : String)
  | writeFile (path : String) (content : String)
  | spawn (cmd : String)
  deriving DecidableEq, Repr

/-- Python's `"{:.2f}".format` on a rational: two decimal places, rounding
half to even at the second decimal as float formatting does. -/
def format2dp (q : ℚ) : String :=
  let n := np_round (q * 100)
  let sign := if n < 0 then "-" else ""
  let a := n.natAbs
  let frac := a % 100
  sign ++ toString (a / 100) ++ "." ++
    (if frac < 10 then "0" else "") ++ toString frac

/-- The separator `logging.info(20 * "-")` logs (data_util.py:491). -/
def sep_line : String := String.join (List.replicate 20 "-")

/-- One per-query report line `"{0}: {1:.2f}".format(q_names[i],
100 * maps[i])` (data_util.py:490). -/
def fmt_query_line (name : String) (ap : ℚ) : String :=
  name ++ ": " ++ format2dp (100 * ap)

/-- The fields of `InstanceRetrievalDataset` that `score` reads, plus the
`binOut` oracle for the external binary's stdout. -/
structure IRScoreEnv where
  labRoot : String
  evalBin : String
  tempDir : String
  imgFilenames : List String
  qnames : List String
  binOut : String → ℚ

/-- `InstanceRetrievalDataset.score_rnk_partial` (data_util.py:494-507;
the Lean name drops the last syllable): materialise the ranked filename
list, write it to `{temp_dir}/{q_names[i]}.rnk`, spawn
`{eval_binary_path} {lab_root}{q_names[i]} {temp_dir}/{q_names[i]}.rnk`
and parse the AP from its stdout. -/
def score_rnk_part (env : IRScoreEnv) (i : ℕ) (idx : List ℕ) :
    List FsEffect × ℚ :=
  let rnk := idx.map (fun j => env.imgFilenames.getD j "")
  let cmd := env.evalBin ++ " " ++ env.labRoot ++ env.qnames.getD i "" ++
    " " ++ env.tempDir ++ "/" ++ env.qnames.getD i "" ++ ".rnk"
  ([FsEffect.writeFile (env.tempDir ++ "/" ++ env.qnames.getD i "" ++ ".rnk")
      (String.intercalate "\n" rnk ++ "\n"),
    FsEffect.spawn cmd],
   env.binOut cmd)

/-- The AP value `score` obtains for query `i`
(`score_rnk_partial(i, idx[i], temp_dir)`, data_util.py:485-488). -/
def ir_ap (env : IRScoreEnv) (sim : List (List ℚ)) (i : ℕ) : ℚ :=
  (score_rnk_part env i ((sim.map instance_retrieval_rank_row).getD i [])).2

/-- The list `maps` of `score` (data_util.py:485-488). -/
def ir_maps (env : IRScoreEnv) (sim : List (List ℚ)) : List ℚ :=
  (List.range env.qnames.length).map (ir_ap env sim)

/-- `InstanceRetrievalDataset.score` (data_util.py:481-492): create
`temp_dir` when absent, rank each similarity row descending, run
`score_rnk_partial` per query (collecting its effects), and log one line
per query, a separator, and the mean line.  Returns (effects, log lines). -/
def instance_retrieval_score (env : IRScoreEnv) (sim : List (List ℚ))
    (dirExists : Bool) : List FsEffect × List String :=
  ((if dirExists then [] else [FsEffect.makeDirs env.tempDir]) ++
    (List.range env.qnames.length).flatMap
      (fun i => (score_rnk_part env i
        ((sim.map instance_retrieval_rank_row).getD i [])).1),
   (List.range env.qnames.length).map
      (fun i => fmt_query_line (env.qnames.getD i "")
        ((ir_maps env sim).getD i 0)) ++
    [sep_line,
     "Mean: " ++ format2dp
       (100 * ((ir_maps env sim).sum / ((ir_maps env sim).length : ℚ)))])

/-- Claim C5 (amended): `InstanceRetrievalDataset.score` is not free of
side effects: it creates the temp directory when absent, and for every
query it writes that query's `.rnk` ranking file and spawns the external
evaluation binary; with at least one query the effect trace is never
empty. -/
theorem instance_retrieval_score_effects (env : IRScoreEnv)
    (sim : List (List ℚ)) (dirExists : Bool)
    (h : 0 < env.qnames.length) :
    (instance_retrieval_score env sim dirExists).1 ≠ [] ∧
    (dirExists = false →
      FsEffect.makeDirs env.tempDir ∈
        (instance_retrieval_score env sim dirExists).1) ∧
    (∀ i, i < env.qnames.length →
      ∀ ef ∈ (score_rnk_part env i
          ((sim.map instance_retrieval_rank_row).getD i [])).1,
        ef ∈ (instance_retrieval_score env sim dirExists).1) := by
  have hmem : ∀ i, i < env.qnames.length →
      ∀ ef ∈ (score_rnk_part env i
          ((sim.map instance_retrieval_rank_row).getD i [])).1,
        ef ∈ (instance_retrieval_score env sim dirExists).1 := by
    intro i hi ef hef
    unfold instance_retrieval_score
    refine List.mem_append.mpr (Or.inr ?_)
    exact List.mem_flatMap.mpr ⟨i, List.mem_range.mpr hi, hef⟩
  refine ⟨?_, ?_, hmem⟩
  · have hw : FsEffect.writeFile
        (env.tempDir ++ "/" ++ env.qnames.getD 0 "" ++ ".rnk")
        (String.intercalate "\n"
          (((sim.map instance_retrieval_rank_row).getD 0 []).map
            (fun j => env.imgFilenames.getD j "")) ++ "\n") ∈
        (instance_retrieval_score env sim dirExists).1 := by
      refine hmem 0 h _ ?_
      unfold score_rnk_part
      exact List.mem_cons_self _ _
    exact List.ne_nil_of_mem hw
  · intro hd
    unfold instance_retrieval_score
    rw [hd]
    exact List.mem_append.mpr (Or.inl (List.mem_singleton.mpr rfl))

/-- Claim C5 (counterexample): a one-query run with a missing temp
directory performs three outward effects — a directory creation, a ranking
file write, and a subprocess spawn — so the effect trace is not empty and
scoring is not limited to producing the result structure. -/
theorem instance_retrieval_score_effects_counterexample :
    (instance_retrieval_score
        ⟨"lab/", "bin", "tmp", ["a"], ["q1"], fun _ => 1⟩ [[1]] false).1 =
      [FsEffect.makeDirs "tmp",
       FsEffect.writeFile "tmp/q1.rnk" "a\n",
       FsEffect.spawn "bin lab/q1 tmp/q1.rnk"] ∧
    (instance_retrieval_score
        ⟨"lab/", "bin", "tmp", ["a"], ["q1"], fun _ => 1⟩ [[1]] false).1 ≠
      [] := by decide

/-- Claim C5 (witness): the amended theorem applied to a two-query run
with the temp directory already present. -/
theorem instance_retrieval_score_effects_witness :
    (instance_retrieval_score
        ⟨"l/", "b", "t", ["a", "c"], ["q1", "q2"], fun _ => 0⟩
        [[1, 0], [0, 1]] true).1 ≠ [] :=
  (instance_retrieval_score_effects
    ⟨"l/", "b", "t", ["a", "c"], ["q1", "q2"], fun _ => 0⟩
    [[1, 0], [0, 1]] true (by decide)).1

/-- For a query index in range, the `maps` entry is that query's AP. -/
theorem ir_maps_getD (env : IRScoreEnv) (sim : List (List ℚ)) (i : ℕ)
    (hi : i < env.qnames.length) :
    (ir_maps env sim).getD i 0 = ir_ap env sim i := by
  rw [ir_maps, List.getD_eq_getElem?_getD, List.getElem?_map,
    List.getElem?_range hi]
  rfl

/-- Claim C6: the simple (non-tiered) evaluation's report is exactly one
line per query — the query name, a colon, and that query's AP as a
percentage to two decimal places — followed by one separator line, followed
by a line `"Mean: <value>"` with the mean AP (sum over queries divided by
the query count) as a percentage to two decimal places. -/
theorem instance_retrieval_report_format (env : IRScoreEnv)
    (sim : List (List ℚ)) (dirExists : Bool)
    (_hnq : env.qnames.length ≠ 0) :
    (instance_retrieval_score env sim dirExists).2.length =
      env.qnames.length + 2 ∧
    (∀ i, i < env.qnames.length →
      (instance_retrieval_score env sim dirExists).2.getD i "" =
        env.qnames.getD i "" ++ ": " ++ format2dp (100 * ir_ap env sim i)) ∧
    (instance_retrieval_score env sim dirExists).2.getD
      env.qnames.length "" = sep_line ∧
    (instance_retrieval_score env sim dirExists).2.getD
      (env.qnames.length + 1) "" =
      "Mean: " ++ format2dp
        (100 * ((ir_maps env sim).sum / (env.qnames.length : ℚ))) := by
  have hlenmap : ((List.range env.qnames.length).map
      (fun i => fmt_query_line (env.qnames.getD i "")
        ((ir_maps env sim).getD i 0))).length = env.qnames.length := by
    rw [List.length_map, List.length_range]
  have hmaps_len : ((ir_maps env sim).length : ℚ) =
      (env.qnames.length : ℚ) := by
    rw [ir_maps, List.length_map, List.length_range]
  refine ⟨?_, ?_, ?_, ?_⟩
  · unfold instance_retrieval_score
    dsimp only
    rw [List.length_append, hlenmap]
    rfl
  · intro i hi
    unfold instance_retrieval_score
    dsimp only
    rw [List.getD_append _ _ _ i (by rw [hlenmap]; exact hi),
      List.getD_eq_getElem?_getD, List.getElem?_map, List.getElem?_range hi]
    dsimp [Option.getD]
    rw [fmt_query_line, ir_maps_getD env sim i hi]
  · unfold instance_retrieval_score
    dsimp only
    rw [List.getD_append_right _ _ _ _ (le_of_eq hlenmap), hlenmap]
    simp
  · unfold instance_retrieval_score
    dsimp only
    rw [List.getD_append_right _ _ _ _ (by rw [hlenmap]; omega), hlenmap,
      hmaps_len]
    simp

/-- Claim C6 (witness): a one-query run produces a three-line report whose
first line is the query's AP line, whose second line is the separator, and
whose last line is the mean line. -/
theorem instance_retrieval_report_format_witness :
    (instance_retrieval_score
        ⟨"lab/", "bin", "tmp", ["a"], ["q1"], fun _ => 1⟩ [[1]] false).2.getD
      (1 + 1) "" =
      "Mean: " ++ format2dp
        (100 * ((ir_maps ⟨"lab/", "bin", "tmp", ["a"], ["q1"], fun _ => 1⟩
          [[1]]).sum / ((1 : ℕ) : ℚ))) :=
  (instance_retrieval_report_format
    ⟨"lab/", "bin", "tmp", ["a"], ["q1"], fun _ => 1⟩ [[1]] false
    (by decide)).2.2.2

/-! ### `merge_features` (misc.py:94-132)

Feature and target payloads stay abstract (`α`, `β`): the final
`feats.reshape(N, -1)` only flattens each payload and does not move rows.
The two insertion-ordered Python dicts `output_feats` / `output_targets`
are modelled as association lists built by appending; `dict(sorted(...))`
is a stable sort of the items by key. -/

/-- One shard file triple
`rank{r}_{split}_{layer}_{features,targets,inds}.npy`. -/
structure Shard (α β : Type) where
  feats : List α
  targets : List β
  inds : List ℕ

/-- The merged `output` dict: `features`, `targets` and `inds` arrays. -/
structure MergeOut (α β : Type) where
  features : List α
  targets : List β
  inds : List ℕ

/-- A shard file as written by a worker: `inds` and `targets` cover every
sample of `feats` (the loop bound is `feats.shape[0]`). -/
def ShardWF (s : Shard α β) : Prop :=
  s.feats.length ≤ s.inds.length ∧ s.feats.length ≤ s.targets.length

/-- Python's `index in output_feats`: key membership in the
insertion-ordered dict. -/
def keyMem (k : ℕ) (m : List (ℕ × γ)) : Bool := m.any (fun p => p.1 == k)

/-- The body of `for idx in range(num_samples)` (misc.py:114-118): read
`index = indices[idx]`; if the key is absent from `output_feats`, store
`feats[idx]` and `targets[idx]` under it in both dicts.  A short `inds` or
`targets` array raises IndexError exactly where Python would. -/
def processShard (s : Shard α β)
    (st : List (ℕ × α) × List (ℕ × β)) :
    List ℕ → Except Err (List (ℕ × α) × List (ℕ × β))
  | [] => .ok st
  | idx :: rest =>
    match s.inds.get? idx with
    | none => .error .indexError
    | some k =>
      if keyMem k st.1 then processShard s st rest
      else
        match s.feats.get? idx, s.targets.get? idx with
        | some fv, some tv =>
          processShard s (st.1 ++ [(k, fv)], st.2 ++ [(k, tv)]) rest
        | _, _ => .error .indexError

/-- The shard iteration order of `merge_features` (misc.py:97-99): outer
loop over `local_rank < NUM_PROC_PER_NODE = P`, inner over
`node_id < NUM_NODES = N`, reading the file of
`dist_rank = P * node_id + local_rank`. -/
def mergeOrder (P N : ℕ) : List ℕ :=
  (List.range P).flatMap (fun lr => (List.range N).map (fun nid => P * nid + lr))

/-- The outer double loop of `merge_features`: process each shard file in
`mergeOrder`, threading the two dicts. -/
def processShards (shards : ℕ → Shard α β) :
    List ℕ → List (ℕ × α) × List (ℕ × β) →
    Except Err (List (ℕ × α) × List (ℕ × β))
  | [], st => .ok st
  | dr :: rest, st =>
    match processShard (shards dr) st
        (List.range (shards dr).feats.length) with
    | .error e => .error e
    | .ok st2 => processShards shards rest st2

/-- Key order used by `dict(sorted(output.items()))`: ascending key (keys
are unique, so the value part of Python's tuple comparison never fires). -/
def pairLe (a b : ℕ × γ) : Prop := a.1 ≤ b.1

instance : DecidableRel (@pairLe γ) := fun a b => Nat.decLe a.1 b.1

instance : IsTotal (ℕ × γ) pairLe where
  total a b := Nat.le_total a.1 b.1

instance : IsTrans (ℕ × γ) pairLe where
  trans _ _ _ hab hbc := Nat.le_trans hab hbc

/-- `merge_features` (misc.py:94-132): load every shard in rank order,
insert first-seen entries into both dicts, sort both by key, and emit the
values and keys as arrays. -/
def merge_features (P N : ℕ) (shards : ℕ → Shard α β) :
    Except Err (MergeOut α β) :=
  match processShards shards (mergeOrder P N) ([], []) with
  | .error e => .error e
  | .ok (fm, tm) =>
    .ok { features := (List.insertionSort pairLe fm).map Prod.snd,
          targets := (List.insertionSort pairLe tm).map Prod.snd,
          inds := (List.insertionSort pairLe fm).map Prod.fst }

/-- The (index, feature, target) triples of one shard in sample order
(under `ShardWF` the zip runs over exactly `range(feats.shape[0])`). -/
def shardTriples (s : Shard α β) : List (ℕ × α × β) :=
  s.inds.zip (s.feats.zip s.targets)

/-- Every sample triple of every shard file, in processing order. -/
def allTriples (P N : ℕ) (shards : ℕ → Shard α β) : List (ℕ × α × β) :=
  (mergeOrder P N).flatMap (fun dr => shardTriples (shards dr))

/-- The entry the first shard file (in `mergeOrder` processing order)
stores for sample index `k`, if any. -/
def firstEntry (P N : ℕ) (shards : ℕ → Shard α β) (k : ℕ) :
    Option (α × β) :=
  ((allTriples P N shards).find? (fun t => t.1 == k)).map (fun t => t.2)

/-- Projection of a merged triple onto the `output_feats` dict entry. -/
def projF (t : ℕ × α × β) : ℕ × α := (t.1, t.2.1)

/-- Projection of a merged triple onto the `output_targets` dict entry. -/
def projT (t : ℕ × α × β) : ℕ × β := (t.1, t.2.2)

/-- Insert-if-absent on the joint triple list: the two dicts always carry
the same keys, so one keyed list tracks both. -/
def tripIns (m : List (ℕ × α × β)) (t : ℕ × α × β) : List (ℕ × α × β) :=
  if keyMem t.1 m then m else m ++ [t]

/-- First-wins accumulation of a triple stream onto an existing state. -/
def dedupFirst (m l : List (ℕ × α × β)) : List (ℕ × α × β) :=
  l.foldl tripIns m

/-- Recursive first-occurrence filter: keep each triple whose key was not
seen before. -/
def dedupRec (seen : List ℕ) : List (ℕ × α × β) → List (ℕ × α × β)
  | [] => []
  | t :: l => if t.1 ∈ seen then dedupRec seen l
      else t :: dedupRec (t.1 :: seen) l

/-- Key membership ignores the stored values. -/
theorem keyMem_map (k : ℕ) (m : List (ℕ × α × β)) (f : (ℕ × α × β) → ℕ × γ)
    (hf : ∀ t, (f t).1 = t.1) : keyMem k (m.map f) = keyMem k m := by
  induction m with
  | nil => rfl
  | cons t l ih =>
    unfold keyMem at *
    simp only [List.map_cons, List.any_cons, hf t, ih]

/-- `get?` on a zip pairs the two component lookups. -/
theorem zip_get? (a : List γ) (b : List δ) (n : ℕ) :
    (a.zip b).get? n =
      (a.get? n).bind (fun x => (b.get? n).map (fun y => (x, y))) := by
  induction a generalizing b n with
  | nil => cases b <;> cases n <;> rfl
  | cons x xs ih =>
    cases b with
    | nil =>
      cases n with
      | zero => rfl
      | succ q =>
        show (none : Option (γ × δ)) = (xs.get? q).bind _
        cases xs.get? q <;> rfl
    | cons y ys =>
      cases n with
      | zero => rfl
      | succ q => exact ih ys q

/-- One unfolding step of the per-shard loop. -/
theorem processShard_cons (s : Shard α β)
    (st : List (ℕ × α) × List (ℕ × β)) (i : ℕ) (L : List ℕ) :
    processShard s st (i :: L) =
      match s.inds.get? i with
      | none => .error .indexError
      | some k =>
        if keyMem k st.1 then processShard s st L
        else
          match s.feats.get? i, s.targets.get? i with
          | some fv, some tv =>
            processShard s (st.1 ++ [(k, fv)], st.2 ++ [(k, tv)]) L
          | _, _ => .error .indexError := rfl

/-- The per-shard loop splits over an index-list concatenation. -/
theorem processShard_append (s : Shard α β)
    (st : List (ℕ × α) × List (ℕ × β)) (L1 L2 : List ℕ) :
    processShard s st (L1 ++ L2) =
      match processShard s st L1 with
      | .error e => .error e
      | .ok st2 => processShard s st2 L2 := by
  induction L1 generalizing st with
  | nil => rfl
  | cons i L1 ih =>
    rw [List.cons_append, processShard_cons, processShard_cons]
    rcases h : s.inds.get? i with _ | k
    · rfl
    · dsimp only
      by_cases hmem : keyMem k st.1
      · rw [if_pos hmem, if_pos hmem]
        exact ih st
      · rw [if_neg hmem, if_neg hmem]
        rcases s.feats.get? i with _ | fv
        · rfl
        · rcases s.targets.get? i with _ | tv
          · rfl
          · exact ih _

/-- Running the per-shard loop up to `n ≤ num_samples` from a joint state
accumulates exactly the first `n` sample triples, first key wins. -/
theorem processShard_spec (s : Shard α β) (hwf : ShardWF s) (n : ℕ)
    (hn : n ≤ s.feats.length) (m : List (ℕ × α × β)) :
    processShard s (m.map projF, m.map projT) (List.range n) =
      .ok ((dedupFirst m ((shardTriples s).take n)).map projF,
           (dedupFirst m ((shardTriples s).take n)).map projT) := by
  induction n generalizing m with
  | zero => simp [processShard, dedupFirst]
  | succ q ih =>
    have hq : q < s.feats.length := Nat.lt_of_succ_le hn
    obtain ⟨k, hk⟩ : ∃ k, s.inds.get? q = some k := by
      rcases h : s.inds.get? q with _ | k0
      · rw [List.get?_eq_none] at h
        have := hwf.1
        omega
      · exact ⟨k0, rfl⟩
    obtain ⟨fv, hfv⟩ : ∃ fv, s.feats.get? q = some fv := by
      rcases h : s.feats.get? q with _ | fv0
      · rw [List.get?_eq_none] at h
        omega
      · exact ⟨fv0, rfl⟩
    obtain ⟨tv, htv⟩ : ∃ tv, s.targets.get? q = some tv := by
      rcases h : s.targets.get? q with _ | tv0
      · rw [List.get?_eq_none] at h
        have := hwf.2
        omega
      · exact ⟨tv0, rfl⟩
    have htrip : (shardTriples s).get? q = some (k, fv, tv) := by
      rw [shardTriples, zip_get?, zip_get?, hk, hfv, htv]
      rfl
    have htake : (shardTriples s).take (q + 1) =
        (shardTriples s).take q ++ [(k, fv, tv)] := by
      rw [List.take_succ, ← List.get?_eq_getElem?, htrip]
      rfl
    rw [List.range_succ, processShard_append,
      ih (Nat.le_of_succ_le hn) m]
    set d := dedupFirst m ((shardTriples s).take q) with hd
    have hstep : dedupFirst m ((shardTriples s).take (q + 1)) =
        tripIns d (k, fv, tv) := by
      rw [htake, dedupFirst, List.foldl_append]
      rfl
    show processShard s (d.map projF, d.map projT) [q] = _
    unfold processShard
    rw [hk]
    dsimp only
    rw [keyMem_map k d projF (fun t => rfl)]
    by_cases hmem : keyMem k d = true
    · rw [if_pos hmem]
      have : tripIns d (k, fv, tv) = d := by
        rw [tripIns, if_pos hmem]
      rw [hstep, this]
      rfl
    · rw [if_neg hmem, hfv, htv]
      have : tripIns d (k, fv, tv) = d ++ [(k, fv, tv)] := by
        rw [tripIns, if_neg hmem]
      rw [hstep, this]
      show processShard s _ [] = _
      unfold processShard
      rw [List.map_append, List.map_append]
      rfl

/-- Under `ShardWF`, a shard's triple stream has exactly
`num_samples = feats.shape[0]` entries. -/
theorem shardTriples_length (s : Shard α β) (hwf : ShardWF s) :
    (shardTriples s).length = s.feats.length := by
  obtain ⟨h1, h2⟩ := hwf
  rw [shardTriples, List.length_zip, List.length_zip]
  omega

/-- One unfolding step of the shard-file loop. -/
theorem processShards_cons (shards : ℕ → Shard α β) (dr : ℕ) (L : List ℕ)
    (st : List (ℕ × α) × List (ℕ × β)) :
    processShards shards (dr :: L) st =
      match processShard (shards dr) st
          (List.range (shards dr).feats.length) with
      | .error e => .error e
      | .ok st2 => processShards shards L st2 := rfl

/-- Processing a list of shard files from a joint state accumulates the
concatenated triple streams, first key wins. -/
theorem processShards_spec (shards : ℕ → Shard α β) (L : List ℕ)
    (h : ∀ dr ∈ L, ShardWF (shards dr)) (m : List (ℕ × α × β)) :
    processShards shards L (m.map projF, m.map projT) =
      .ok ((dedupFirst m
              (L.flatMap (fun dr => shardTriples (shards dr)))).map projF,
           (dedupFirst m
              (L.flatMap (fun dr => shardTriples (shards dr)))).map projT) := by
  induction L generalizing m with
  | nil => simp [processShards, dedupFirst]
  | cons dr L ih =>
    have hwf : ShardWF (shards dr) := h dr (List.mem_cons_self dr L)
    have htake : (shardTriples (shards dr)).take (shards dr).feats.length =
        shardTriples (shards dr) := by
      rw [← shardTriples_length (shards dr) hwf]
      exact List.take_length _
    rw [processShards_cons,
      processShard_spec (shards dr) hwf (shards dr).feats.length le_rfl m,
      htake]
    dsimp only
    rw [ih (fun d hd => h d (List.mem_cons_of_mem dr hd))]
    rw [List.flatMap_cons, dedupFirst, dedupFirst, dedupFirst,
      List.foldl_append]

/-- `keyMem` tests exactly key membership. -/
theorem keyMem_iff (k : ℕ) (m : List (ℕ × α × β)) :
    keyMem k m = true ↔ ∃ t ∈ m, t.1 = k := by
  unfold keyMem
  rw [List.any_eq_true]
  constructor
  · rintro ⟨t, ht, he⟩
    exact ⟨t, ht, by simpa using he⟩
  · rintro ⟨t, ht, he⟩
    exact ⟨t, ht, by simpa using he⟩

/-- `dedupRec` only depends on the membership of the seen set. -/
theorem dedupRec_seen_congr (l : List (ℕ × α × β)) :
    ∀ s1 s2 : List ℕ, (∀ x, x ∈ s1 ↔ x ∈ s2) →
      dedupRec s1 l = dedupRec s2 l := by
  induction l with
  | nil => intro s1 s2 _; rfl
  | cons t l ih =>
    intro s1 s2 hs
    unfold dedupRec
    by_cases hmem : t.1 ∈ s1
    · rw [if_pos hmem, if_pos ((hs t.1).mp hmem)]
      exact ih s1 s2 hs
    · rw [if_neg hmem, if_neg (fun hh => hmem ((hs t.1).mpr hh))]
      rw [ih (t.1 :: s1) (t.1 :: s2) (fun x => by
        simp only [List.mem_cons]
        exact or_congr Iff.rfl (hs x))]

/-- The fold that builds the two dicts is append plus a recursive
first-occurrence filter over the unseen keys. -/
theorem dedupFirst_eq_dedupRec (l m : List (ℕ × α × β)) :
    dedupFirst m l = m ++ dedupRec (m.map Prod.fst) l := by
  induction l generalizing m with
  | nil => simp [dedupFirst, dedupRec]
  | cons t l ih =>
    show dedupFirst (tripIns m t) l = _
    unfold dedupRec
    by_cases hmem : keyMem t.1 m = true
    · have ht : tripIns m t = m := by rw [tripIns, if_pos hmem]
      have hseen : t.1 ∈ m.map Prod.fst := by
        obtain ⟨u, hu, he⟩ := (keyMem_iff t.1 m).mp hmem
        exact List.mem_map.mpr ⟨u, hu, he⟩
      rw [ht, if_pos hseen]
      exact ih m
    · have ht : tripIns m t = m ++ [t] := by rw [tripIns, if_neg hmem]
      have hseen : t.1 ∉ m.map Prod.fst := by
        intro hh
        obtain ⟨u, hu, he⟩ := List.mem_map.mp hh
        exact hmem ((keyMem_iff t.1 m).mpr ⟨u, hu, he⟩)
      rw [ht, if_neg hseen, ih (m ++ [t]), List.map_append]
      simp only [List.map_cons, List.map_nil]
      rw [dedupRec_seen_congr l (m.map Prod.fst ++ [t.1])
          (t.1 :: m.map Prod.fst) (fun x => by simp [or_comm]),
        List.append_assoc]
      rfl

/-- Membership in the first-occurrence filter: exactly the first triple of
each unseen key. -/
theorem dedupRec_mem (l : List (ℕ × α × β)) :
    ∀ (seen : List ℕ) (t : ℕ × α × β),
      t ∈ dedupRec seen l ↔
        t.1 ∉ seen ∧ l.find? (fun u => u.1 == t.1) = some t := by
  induction l with
  | nil =>
    intro seen t
    simp [dedupRec]
  | cons u l ih =>
    intro seen t
    unfold dedupRec
    by_cases hmem : u.1 ∈ seen
    · rw [if_pos hmem, ih seen t]
      constructor
      · rintro ⟨hns, hf⟩
        have hne : (u.1 == t.1) = false := by
          rcases h : (u.1 == t.1) with _ | _
          · rfl
          · exact absurd (beq_iff_eq.mp h ▸ hmem) hns
        rw [List.find?_cons_of_neg _ (by simp [hne])]
        exact ⟨hns, hf⟩
      · rintro ⟨hns, hf⟩
        have hne : (u.1 == t.1) = false := by
          rcases h : (u.1 == t.1) with _ | _
          · rfl
          · exact absurd (beq_iff_eq.mp h ▸ hmem) hns
        rw [List.find?_cons_of_neg _ (by simp [hne])] at hf
        exact ⟨hns, hf⟩
    · rw [if_neg hmem]
      constructor
      · intro hmem2
        rcases List.mem_cons.mp hmem2 with rfl | htail
        · exact ⟨hmem, by rw [List.find?_cons_of_pos _ (by simp)]⟩
        · obtain ⟨hns, hf⟩ := (ih (u.1 :: seen) t).mp htail
          have hne : t.1 ≠ u.1 := fun hh =>
            hns (List.mem_cons.mpr (Or.inl hh))
          refine ⟨fun hh => hns (List.mem_cons.mpr (Or.inr hh)), ?_⟩
          rw [List.find?_cons_of_neg _ (by
            simp only [beq_iff_eq]
            exact fun hh => hne hh.symm)]
          exact hf
      · rintro ⟨hns, hf⟩
        by_cases heq : u.1 = t.1
        · rw [List.find?_cons_of_pos _ (by simp [heq])] at hf
          injection hf with hf
          exact List.mem_cons.mpr (Or.inl hf.symm)
        · rw [List.find?_cons_of_neg _ (by simp [heq])] at hf
          refine List.mem_cons.mpr (Or.inr ((ih (u.1 :: seen) t).mpr
            ⟨?_, hf⟩))
          intro hh
          rcases List.mem_cons.mp hh with hh1 | hh2
          · exact heq hh1.symm
          · exact hns hh2

/-- The first-occurrence filter has pairwise-distinct keys, none of them
previously seen. -/
theorem dedupRec_keys_nodup (l : List (ℕ × α × β)) :
    ∀ seen : List ℕ,
      ((dedupRec seen l).map Prod.fst).Nodup ∧
      (∀ k ∈ (dedupRec seen l).map Prod.fst, k ∉ seen) := by
  induction l with
  | nil => intro seen; simp [dedupRec]
  | cons t l ih =>
    intro seen
    unfold dedupRec
    by_cases hmem : t.1 ∈ seen
    · rw [if_pos hmem]
      exact ih seen
    · rw [if_neg hmem]
      obtain ⟨hnd, hdisj⟩ := ih (t.1 :: seen)
      refine ⟨?_, ?_⟩
      · rw [List.map_cons, List.nodup_cons]
        exact ⟨fun hh => hdisj t.1 hh (List.mem_cons_self t.1 seen), hnd⟩
      · intro k hk
        rw [List.map_cons] at hk
        rcases List.mem_cons.mp hk with hk1 | hk2
        · exact hk1 ▸ hmem
        · exact fun hh => hdisj k hk2 (List.mem_cons.mpr (Or.inr hh))

/-- Ordered insertion commutes with a key-preserving projection (the sort
comparison only reads the key). -/
theorem orderedInsert_map (f : (ℕ × α × β) → ℕ × γ)
    (hf : ∀ t, (f t).1 = t.1) (a : ℕ × α × β) (l : List (ℕ × α × β)) :
    List.orderedInsert pairLe (f a) (l.map f) =
      (List.orderedInsert pairLe a l).map f := by
  induction l with
  | nil => rfl
  | cons b l ih =>
    have heq : pairLe (f a) (f b) ↔ pairLe a b := by
      unfold pairLe
      rw [hf a, hf b]
    simp only [List.map_cons, List.orderedInsert]
    by_cases h : pairLe a b
    · rw [if_pos (heq.mpr h), if_pos h]
      rfl
    · rw [if_neg (fun hh => h (heq.mp hh)), if_neg h, List.map_cons, ih]

/-- Insertion sort commutes with a key-preserving projection. -/
theorem insertionSort_map (f : (ℕ × α × β) → ℕ × γ)
    (hf : ∀ t, (f t).1 = t.1) (l : List (ℕ × α × β)) :
    List.insertionSort pairLe (l.map f) =
      (List.insertionSort pairLe l).map f := by
  induction l with
  | nil => rfl
  | cons a l ih =>
    simp only [List.map_cons, List.insertionSort]
    rw [ih, orderedInsert_map f hf]

/-- Claim C8: for every family of well-formed shard files, `merge_features`
succeeds with an output whose `inds` array is strictly increasing, whose
`features` and `targets` arrays have the same length as `inds`, whose row
`i` holds exactly the feature and target stored for sample index `inds[i]`
by the first shard file that contains that index — iteration being
local_rank-major over local_rank × node_id (`mergeOrder`) — and whose
`inds` contains precisely the sample indices occurring in some shard. -/
theorem merge_features_correct (P N : ℕ) (shards : ℕ → Shard α β)
    (hwf : ∀ dr, ShardWF (shards dr)) :
    ∃ out : MergeOut α β,
      merge_features P N shards = .ok out ∧
      List.Pairwise (· < ·) out.inds ∧
      out.features.length = out.inds.length ∧
      out.targets.length = out.inds.length ∧
      (∀ (k : ℕ) (fv : α) (tv : β),
        (k, fv, tv) ∈ out.inds.zip (out.features.zip out.targets) →
        firstEntry P N shards k = some (fv, tv)) ∧
      (∀ k : ℕ, k ∈ out.inds ↔ (firstEntry P N shards k).isSome) := by
  have hproc : processShards shards (mergeOrder P N) ([], []) =
      .ok ((dedupRec [] (allTriples P N shards)).map projF,
           (dedupRec [] (allTriples P N shards)).map projT) := by
    have h := processShards_spec shards (mergeOrder P N)
      (fun dr _ => hwf dr) []
    rw [dedupFirst_eq_dedupRec] at h
    simpa [allTriples] using h
  set d0 := dedupRec [] (allTriples P N shards) with hd0
  set ds := List.insertionSort pairLe d0 with hds
  have hperm : ds.Perm d0 := List.perm_insertionSort pairLe d0
  have hout : merge_features P N shards =
      .ok { features := ds.map (fun t => t.2.1),
            targets := ds.map (fun t => t.2.2),
            inds := ds.map (fun t => t.1) } := by
    unfold merge_features
    rw [hproc]
    dsimp only
    rw [insertionSort_map projF (fun t => rfl) d0,
      insertionSort_map projT (fun t => rfl) d0,
      List.map_map, List.map_map, List.map_map]
    rfl
  have hmem_d0 : ∀ t : ℕ × α × β, t ∈ d0 ↔
      (allTriples P N shards).find? (fun u => u.1 == t.1) = some t := by
    intro t
    rw [hd0, dedupRec_mem]
    simp
  refine ⟨_, hout, ?_, ?_, ?_, ?_, ?_⟩
  · have h1 : ds.Pairwise pairLe := List.sorted_insertionSort pairLe d0
    have hnd0 : (d0.map Prod.fst).Nodup := (dedupRec_keys_nodup _ []).1
    have hnds : (ds.map Prod.fst).Nodup :=
      ((hperm.map Prod.fst).nodup_iff).mpr hnd0
    have h2 : ds.Pairwise (fun a b => a.1 ≠ b.1) :=
      List.pairwise_map.mp hnds
    refine List.pairwise_map.mpr ?_
    exact (h1.and h2).imp (fun hab => lt_of_le_of_ne hab.1 hab.2)
  · simp
  · simp
  · intro k fv tv hmem
    have hzip : (ds.map (fun t => t.1)).zip
        ((ds.map (fun t => t.2.1)).zip (ds.map (fun t => t.2.2))) = ds := by
      rw [List.zip_map', List.zip_map']
      exact List.map_id ds
    rw [hzip] at hmem
    have ht : ((k, fv, tv) : ℕ × α × β) ∈ d0 := hperm.mem_iff.mp hmem
    have hfind := (hmem_d0 (k, fv, tv)).mp ht
    rw [firstEntry, hfind]
    rfl
  · intro k
    constructor
    · intro hk
      obtain ⟨t, ht, hkey⟩ := List.mem_map.mp hk
      have hfind := (hmem_d0 t).mp (hperm.mem_iff.mp ht)
      have hfind2 : (allTriples P N shards).find? (fun u => u.1 == k) =
          some t := by
        rw [← hkey]
        exact hfind
      rw [firstEntry, hfind2]
      rfl
    · intro hk
      rcases hfind : (allTriples P N shards).find? (fun u => u.1 == k)
        with _ | t
      · rw [firstEntry, hfind] at hk
        exact absurd hk (by simp)
      · have hkey : t.1 = k := by
          have := List.find?_some hfind
          simpa using this
        have ht : t ∈ d0 := (hmem_d0 t).mpr (by rw [hkey]; exact hfind)
        exact List.mem_map.mpr ⟨t, hperm.mem_iff.mpr ht, hkey⟩

/-- Claim C8 (witness): two shard files with an overlapping sample index
merge into a sorted, deduplicated output. -/
theorem merge_features_correct_witness :
    (merge_features 1 2 (fun dr =>
      if dr = 0 then (⟨[7, 8], [5, 6], [3, 1]⟩ : Shard ℕ ℕ)
      else ⟨[9], [4], [3]⟩)).isOk = true := by
  obtain ⟨out, hout, -⟩ := merge_features_correct 1 2
    (fun dr => if dr = 0 then (⟨[7, 8], [5, 6], [3, 1]⟩ : Shard ℕ ℕ)
      else ⟨[9], [4], [3]⟩)
    (fun dr => by
      by_cases h : dr = 0 <;> simp [ShardWF, h])
  rw [hout]
  rfl
